import Mathlib

/-!
Verification development for the Grafana excerpt: the dashboard version
retention pruner (spec §3–§8; the store implementation is exercised by the
integration test in the excerpt but is itself not part of the provided
sources, so it is modelled from the spec), and the Explore rich-history
utilities from `public/app/core/utils/richHistory.ts` (embedded from the
source).
-/

namespace Grafana

/-- Modelled from the spec: the spec's §3 `VersionedRecord` — one saved
snapshot of a parent entity.  The store implementation behind the
dashboard-version integration test is missing from the sources, so the data
model follows the spec's words: `parentId`, strictly-increasing `version`,
opaque `payload`, `createdAt`. -/
structure VersionedRecord where
  parentId : Nat
  version : Nat
  payload : String
  createdAt : Nat
deriving DecidableEq, Repr

/-- The backing store's version table, one row per save, in save order. -/
abbrev Store := List VersionedRecord

/-- All rows of one parent, in save order. -/
def recordsOf (store : Store) (pid : Nat) : List VersionedRecord :=
  store.filter (fun r => r.parentId == pid)

/-- The version numbers recorded for one parent, in save order. -/
def versionsOf (store : Store) (pid : Nat) : List Nat :=
  (recordsOf store pid).map (fun r => r.version)

/-- The distinct parent ids appearing in the store. -/
def parentsOf (store : Store) : List Nat :=
  (store.map (fun r => r.parentId)).dedup

/-- Store invariant from the spec's §3 data model: for a given `parentId`
the version values are strictly increasing (hence unique) in save order. -/
def StoreOk (store : Store) : Prop :=
  ∀ pid ∈ parentsOf store, (versionsOf store pid).Sorted (· < ·)

instance (store : Store) : Decidable (StoreOk store) := by
  unfold StoreOk
  infer_instance

/-- One parent's version numbers ordered ascending (oldest first). -/
def sortedVersions (store : Store) (pid : Nat) : List Nat :=
  (versionsOf store pid).insertionSort (· ≤ ·)

/-- Modelled from the spec: §4.1 step 1 — per parent, the excess versions
are all versions except the `versionsToKeep` most recent, listed oldest
first. -/
def excessList (keep : Nat) (store : Store) (pid : Nat) : List Nat :=
  (sortedVersions store pid).take ((sortedVersions store pid).length - keep)

/-- The `versionsToKeep` most recent versions of one parent (all of them
when fewer exist), listed ascending. -/
def keptList (keep : Nat) (store : Store) (pid : Nat) : List Nat :=
  (sortedVersions store pid).drop ((sortedVersions store pid).length - keep)

/-- Modelled from the spec: §4.1 step 1 — the store-wide excess set as
`(parentId, version)` pairs, each parent's excess oldest first. -/
def excessPairs (keep : Nat) (store : Store) : List (Nat × Nat) :=
  (parentsOf store).flatMap (fun pid => (excessList keep store pid).map (fun v => (pid, v)))

/-- The spec's §7 `StoreError`: an underlying store failure during
query/delete. -/
inductive StoreError where
  | storeError (msg : String)
deriving DecidableEq, Repr

/-- Modelled from the spec: §4.2 `deleteVersions(ids)` — delete the rows
whose `(parentId, version)` pair is in the given id list. -/
def deletePairs (ps : List (Nat × Nat)) (store : Store) : Store :=
  store.filter (fun r => decide ((r.parentId, r.version) ∉ ps))

/-- Modelled from the spec: §4.1 steps 2–3 and §7 — delete the pending
excess pairs in rounds of at most `perBatch` rows, stopping after
`batchesLeft` rounds or when a round is empty.  `failAt` models the backing
store failing the round with the given index (§7 `StoreError`); a failing
round deletes nothing, aborts the remaining rounds and surfaces the error
unmodified.  Returns (error, rows deleted, resulting store). -/
def pruneRun (failAt : Nat → Option StoreError) (perBatch : Nat)
    (pairs : List (Nat × Nat)) (batchesLeft idx : Nat) (store : Store)
    (deleted : Nat) : Option StoreError × Nat × Store :=
  match batchesLeft with
  | 0 => (none, deleted, store)
  | n + 1 =>
    let batch := pairs.take perBatch
    if batch.isEmpty then (none, deleted, store)
    else
      match failAt idx with
      | some e => (some e, deleted, store)
      | none =>
        let store2 := deletePairs batch store
        pruneRun failAt perBatch (pairs.drop perBatch) n (idx + 1) store2
          (deleted + (store.length - store2.length))

/-- Modelled from the spec: §4.1 `pruneExpiredVersions(maxRowsPerBatch,
maxBatches)` with an explicit store-failure model. -/
def pruneExpiredVersionsWith (failAt : Nat → Option StoreError)
    (keep perBatch maxBatches : Nat) (store : Store) :
    Option StoreError × Nat × Store :=
  pruneRun failAt perBatch (excessPairs keep store) maxBatches 0 store 0

/-- Modelled from the spec: §4.1 `pruneExpiredVersions` when the backing
store does not fail — returns (rows deleted, resulting store). -/
def pruneExpiredVersions (keep perBatch maxBatches : Nat) (store : Store) :
    Nat × Store :=
  (pruneExpiredVersionsWith (fun _ => none) keep perBatch maxBatches store).2

/-- The `(parentId, version)` key of every row, in save order. -/
def keysOf (store : Store) : List (Nat × Nat) :=
  store.map (fun r => (r.parentId, r.version))

/-- The versions that a list of `(parentId, version)` pairs carries for one
parent, in list order. -/
def parentSlice (pid : Nat) (ps : List (Nat × Nat)) : List Nat :=
  (ps.filter (fun q => q.1 == pid)).map (fun q => q.2)

/-- The spec's §7 error taxonomy for the version query interface. -/
inductive VersionQueryError where
  | notFound
  | noVersionsFound
deriving DecidableEq, Repr

/-- Modelled from the spec: §4.2 `getVersion(parentId, version)` — returns
the record, fails with `NotFound` if absent. -/
def getVersion (store : Store) (pid v : Nat) :
    Except VersionQueryError VersionedRecord :=
  match store.find? (fun r => r.parentId == pid && r.version == v) with
  | some r => .ok r
  | none => .error .notFound

/-- Modelled from the spec: §4.2 `listVersions(parentId)` — the parent's
records ordered descending by version, with `NoVersionsFound` and an empty
result sequence when the parent has zero versions. -/
def listVersions (store : Store) (pid : Nat) :
    Option VersionQueryError × List VersionedRecord :=
  let result := (recordsOf store pid).insertionSort (fun a b => b.version ≤ a.version)
  if result.isEmpty then (some .noVersionsFound, [])
  else (none, result)

instance : IsTotal VersionedRecord (fun a b => b.version ≤ a.version) :=
  ⟨fun a b => Nat.le_total b.version a.version⟩

instance : IsTrans VersionedRecord (fun a b => b.version ≤ a.version) :=
  ⟨fun _ _ _ hab hbc => Nat.le_trans hbc hab⟩

/-- Concrete store: one parent (id 1) with versions 1..10, as in the
retention test of the excerpt. -/
def storeTen : Store :=
  [⟨1, 1, "", 0⟩, ⟨1, 2, "", 1⟩, ⟨1, 3, "", 2⟩, ⟨1, 4, "", 3⟩, ⟨1, 5, "", 4⟩,
   ⟨1, 6, "", 5⟩, ⟨1, 7, "", 6⟩, ⟨1, 8, "", 7⟩, ⟨1, 9, "", 8⟩, ⟨1, 10, "", 9⟩]

/-- Concrete store: one parent (id 1) with versions 1..3. -/
def storeThree : Store :=
  [⟨1, 1, "", 0⟩, ⟨1, 2, "", 1⟩, ⟨1, 3, "", 2⟩]

end Grafana

namespace RichHistory

/-- A data query as handled by `richHistory.ts`: a JS object, embedded as
its property list (name, serialized value). -/
abbrev DataQuery := List (String × String)

/-- Embeds `notEmptyQuery` from `public/app/core/utils/richHistory.ts`:
a query is non-empty when it has any property besides `key`, `refId` and
`datasource`. -/
def notEmptyQuery (query : DataQuery) : Bool :=
  let strippedQuery := query.filter (fun kv =>
    !(kv.1 == "key" || kv.1 == "refId" || kv.1 == "datasource"))
  decide (0 < strippedQuery.length)

/-- Embeds the `RichHistoryQuery` record used by
`public/app/core/utils/richHistory.ts`. -/
structure RichHistoryQuery where
  queries : List DataQuery
  ts : Nat
  datasourceId : String
  datasourceName : String
  starred : Bool
  comment : String
  sessionName : String
deriving DecidableEq, Repr

/-- Outcome of `getRichHistoryStorage().addToRichHistory`: success carries
whether a `LimitExceeded` warning was returned; the error cases mirror the
`catch` branches of `addToRichHistory` (`StorageFull`, `DuplicatedEntry`,
any other error). -/
inductive StorageOutcome where
  | success (limitWarning : Bool)
  | storageFullError
  | duplicatedEntryError
  | otherError
deriving DecidableEq, Repr

/-- Embeds `addToRichHistory` from `public/app/core/utils/richHistory.ts`,
restricted to its state: `Date.now()` is the `ts` argument, the storage
call's outcome is the `outcome` argument, and the UI notification dispatches
are dropped.  Returns (richHistory, richHistoryStorageFull, limitExceeded). -/
def addToRichHistory (outcome : StorageOutcome)
    (richHistory : List RichHistoryQuery) (datasourceId : String)
    (datasourceName : Option String) (queries : List DataQuery)
    (starred : Bool) (comment : Option String) (sessionName : String)
    (ts : Nat) : List RichHistoryQuery × Bool × Bool :=
  let newQueriesToSave := queries.filter (fun query => notEmptyQuery query)
  if 0 < newQueriesToSave.length then
    let newRichHistory : RichHistoryQuery :=
      { queries := newQueriesToSave
        ts := ts
        datasourceId := datasourceId
        datasourceName := datasourceName.getD ""
        starred := starred
        comment := comment.getD ""
        sessionName := sessionName }
    match outcome with
    | .storageFullError => (richHistory, true, false)
    | .duplicatedEntryError => (richHistory, false, false)
    | .otherError => (richHistory, false, false)
    | .success w => (newRichHistory :: richHistory, false, w)
  else (richHistory, false, false)

/-- Embeds `updateStarredInRichHistory` from
`public/app/core/utils/richHistory.ts`: flip the starred flag of the entry
with timestamp `ts`; if no entry matches (`updatedQuery` stays undefined)
the input is returned; if the storage call fails (`storageOk = false`) the
input is returned unchanged. -/
def updateStarredInRichHistory (storageOk : Bool)
    (richHistory : List RichHistoryQuery) (ts : Nat) : List RichHistoryQuery :=
  let updatedHistory := richHistory.map (fun query =>
    if query.ts = ts then { query with starred := !query.starred } else query)
  if richHistory.any (fun query => query.ts == ts) then
    if storageOk then updatedHistory else richHistory
  else richHistory

/-- Concrete rich-history entry used to exercise the embedded functions. -/
def rhA : RichHistoryQuery :=
  ⟨[[("expr", "up")]], 1, "ds", "DS", false, "", "session"⟩

/-- Second concrete rich-history entry, with a distinct timestamp. -/
def rhB : RichHistoryQuery :=
  ⟨[[("expr", "rate")]], 2, "ds", "DS", true, "", "session"⟩

end RichHistory

open Grafana RichHistory

/-- Partition identity: keeping the matches and keeping the non-matches of a
filter together account for the whole list. -/
theorem length_filter_add_length_filter_not {α : Type} (p : α → Bool) (l : List α) :
    (l.filter p).length + (l.filter (fun a => !p a)).length = l.length := by
  induction l with
  | nil => rfl
  | cons a l ih =>
    cases h : p a <;> simp [List.filter_cons, h] <;> omega

/-- `versionsOf` over a cons cell. -/
theorem versionsOf_cons (r : VersionedRecord) (s : Store) (pid : Nat) :
    versionsOf (r :: s) pid =
      if r.parentId = pid then r.version :: versionsOf s pid
      else versionsOf s pid := by
  by_cases h : r.parentId = pid <;>
    simp [versionsOf, recordsOf, List.filter_cons, h]

/-- A parent absent from `parentsOf` has no recorded versions. -/
theorem versionsOf_eq_nil {store : Store} {pid : Nat} (h : pid ∉ parentsOf store) :
    versionsOf store pid = [] := by
  have hrec : recordsOf store pid = [] := by
    apply List.filter_eq_nil_iff.mpr
    intro r hr hbeq
    apply h
    simp only [parentsOf, List.mem_dedup, List.mem_map]
    exact ⟨r, hr, by simpa using hbeq⟩
  simp [versionsOf, hrec]

/-- A recorded version forces its parent into `parentsOf`. -/
theorem mem_parentsOf_of_mem_versionsOf {store : Store} {pid v : Nat}
    (h : v ∈ versionsOf store pid) : pid ∈ parentsOf store := by
  by_contra hn
  rw [versionsOf_eq_nil hn] at h
  exact absurd h (List.not_mem_nil v)

/-- Under the store invariant every parent's version list is strictly
ascending, parents without versions included. -/
theorem sorted_versionsOf {store : Store} (hok : StoreOk store) (pid : Nat) :
    (versionsOf store pid).Sorted (· < ·) := by
  by_cases h : pid ∈ parentsOf store
  · exact hok pid h
  · rw [versionsOf_eq_nil h]
    exact List.sorted_nil

/-- The store invariant restricts to the tail of the store. -/
theorem storeOk_tail {r : VersionedRecord} {s : Store} (hok : StoreOk (r :: s)) :
    StoreOk s := by
  intro pid _
  have h := sorted_versionsOf hok pid
  rw [versionsOf_cons] at h
  split at h
  · exact h.of_cons
  · exact h

/-- Under the store invariant the `(parentId, version)` keys are pairwise
distinct. -/
theorem keysOf_nodup {store : Store} (hok : StoreOk store) :
    (keysOf store).Nodup := by
  induction store with
  | nil => exact List.nodup_nil
  | cons r s ih =>
    have hs : (keysOf s).Nodup := ih (storeOk_tail hok)
    have hmem : (r.parentId, r.version) ∉ keysOf s := by
      intro hmem
      have hx : ∃ x ∈ s, x.parentId = r.parentId ∧ x.version = r.version := by
        simpa [keysOf, List.mem_map, Prod.ext_iff] using hmem
      rcases hx with ⟨x, hxs, hpx, hvx⟩
      have hv : r.version ∈ versionsOf s r.parentId := by
        simp only [versionsOf, recordsOf, List.mem_map, List.mem_filter]
        exact ⟨x, ⟨hxs, by simpa using hpx⟩, hvx⟩
      have hsort := sorted_versionsOf hok r.parentId
      rw [versionsOf_cons, if_pos rfl] at hsort
      exact Nat.lt_irrefl _ ((List.sorted_cons.mp hsort).1 r.version hv)
    show ((r.parentId, r.version) :: keysOf s).Nodup
    exact List.nodup_cons.mpr ⟨hmem, hs⟩

/-- Under the store invariant a parent's version list has no duplicates. -/
theorem nodup_versionsOf {store : Store} (hok : StoreOk store) (pid : Nat) :
    (versionsOf store pid).Nodup :=
  List.Pairwise.imp (fun h => Nat.ne_of_lt h) (sorted_versionsOf hok pid)

/-- Under the store invariant sorting a parent's versions is the identity. -/
theorem sortedVersions_eq {store : Store} (hok : StoreOk store) (pid : Nat) :
    sortedVersions store pid = versionsOf store pid :=
  List.Sorted.insertionSort_eq
    (List.Pairwise.imp (fun h => Nat.le_of_lt h) (sorted_versionsOf hok pid))

/-- Deleting an empty id list leaves the store unchanged. -/
theorem deletePairs_nil_pairs (store : Store) : deletePairs [] store = store := by
  simp [deletePairs]

/-- `deletePairs` over a cons cell of the store. -/
theorem deletePairs_cons (ps : List (Nat × Nat)) (r : VersionedRecord) (s : Store) :
    deletePairs ps (r :: s) =
      if (r.parentId, r.version) ∈ ps then deletePairs ps s
      else r :: deletePairs ps s := by
  by_cases h : (r.parentId, r.version) ∈ ps <;>
    simp [deletePairs, List.filter_cons, h]

/-- Two successive deletions equal one deletion of the concatenated id
lists. -/
theorem deletePairs_append (ps qs : List (Nat × Nat)) (store : Store) :
    deletePairs qs (deletePairs ps store) = deletePairs (ps ++ qs) store := by
  unfold deletePairs
  rw [List.filter_filter]
  apply List.filter_congr
  intro r _
  by_cases h1 : (r.parentId, r.version) ∈ ps <;>
    by_cases h2 : (r.parentId, r.version) ∈ qs <;>
      simp [List.mem_append, h1, h2]

/-- Deletion never grows the store. -/
theorem length_deletePairs_le (ps : List (Nat × Nat)) (store : Store) :
    (deletePairs ps store).length ≤ store.length :=
  List.length_filter_le _ _

/-- With pairwise-distinct row keys, a deletion removes at most one row per
requested id. -/
theorem deleted_le_of_keysNodup {store : Store} (hnd : (keysOf store).Nodup)
    (ps : List (Nat × Nat)) :
    store.length - (deletePairs ps store).length ≤ ps.length := by
  have hcong : store.filter (fun r => !(decide ((r.parentId, r.version) ∉ ps)))
      = store.filter (fun r => decide ((r.parentId, r.version) ∈ ps)) := by
    apply List.filter_congr
    intro r _
    by_cases h : (r.parentId, r.version) ∈ ps <;> simp [h]
  have hpart : (deletePairs ps store).length +
      (store.filter (fun r => decide ((r.parentId, r.version) ∈ ps))).length
        = store.length := by
    have h := length_filter_add_length_filter_not
      (fun r => decide ((r.parentId, r.version) ∉ ps)) store
    rw [hcong] at h
    simpa [deletePairs] using h
  have hmapnd : ((store.filter (fun r => decide ((r.parentId, r.version) ∈ ps))).map
      (fun r => (r.parentId, r.version))).Nodup := by
    have hsub : ((store.filter (fun r => decide ((r.parentId, r.version) ∈ ps))).map
        (fun r => (r.parentId, r.version))).Sublist (keysOf store) :=
      (List.filter_sublist store).map (fun r => (r.parentId, r.version))
    exact List.Nodup.sublist hsub hnd
  have hsubset : ∀ x ∈ (store.filter (fun r => decide ((r.parentId, r.version) ∈ ps))).map
      (fun r => (r.parentId, r.version)), x ∈ ps := by
    intro x hx
    rcases List.mem_map.mp hx with ⟨r, hr, rfl⟩
    exact of_decide_eq_true (List.mem_filter.mp hr).2
  have hlen := (List.subperm_of_subset hmapnd hsubset).length_le
  rw [List.length_map] at hlen
  omega

/-- A parent's surviving versions after a deletion are its original versions
minus the deleted ids of that parent. -/
theorem versionsOf_deletePairs (ps : List (Nat × Nat)) (store : Store) (pid : Nat) :
    versionsOf (deletePairs ps store) pid
      = (versionsOf store pid).filter (fun v => decide ((pid, v) ∉ ps)) := by
  induction store with
  | nil => rfl
  | cons r s ih =>
    by_cases hp : r.parentId = pid <;>
      by_cases hm : (r.parentId, r.version) ∈ ps <;>
        simp_all [deletePairs_cons, versionsOf_cons, List.filter_cons]

/-- Membership in the store-wide excess set, parent by parent. -/
theorem mem_excessPairs {keep : Nat} {store : Store} {p v : Nat} :
    (p, v) ∈ excessPairs keep store ↔
      p ∈ parentsOf store ∧ v ∈ excessList keep store p := by
  constructor
  · intro h
    rcases List.mem_flatMap.mp h with ⟨q, hq, hmem⟩
    rcases List.mem_map.mp hmem with ⟨v2, hv2, heq⟩
    injection heq with h1 h2
    subst h1
    subst h2
    exact ⟨hq, hv2⟩
  · rintro ⟨hp, hv⟩
    exact List.mem_flatMap.mpr ⟨p, hp, List.mem_map.mpr ⟨v, hv, rfl⟩⟩

/-- Filtering a duplicate-free list down to the elements outside its own
prefix yields the matching suffix. -/
theorem filter_not_mem_take {l : List Nat} (hnd : l.Nodup) (m : Nat) :
    l.filter (fun v => decide (v ∉ l.take m)) = l.drop m := by
  have h1 : l.filter (fun v => decide (v ∉ l.take m))
      = (l.take m ++ l.drop m).filter (fun v => decide (v ∉ l.take m)) :=
    congrArg (List.filter (fun v => decide (v ∉ l.take m)))
      (List.take_append_drop m l).symm
  rw [h1, List.filter_append]
  have h2 : (l.take m).filter (fun v => decide (v ∉ l.take m)) = [] := by
    apply List.filter_eq_nil_iff.mpr
    intro a ha
    simp [ha]
  have h3 : (l.drop m).filter (fun v => decide (v ∉ l.take m)) = l.drop m := by
    apply List.filter_eq_self.mpr
    intro a ha
    have hnm : a ∉ l.take m := fun hmem =>
      (List.disjoint_take_drop hnd (Nat.le_refl m)) hmem ha
    simp [hnm]
  rw [h2, h3, List.nil_append]

/-- A run over an empty id list deletes nothing and succeeds. -/
theorem pruneRun_nil (failAt : Nat → Option StoreError) (perBatch B idx : Nat)
    (store : Store) (d : Nat) :
    pruneRun failAt perBatch [] B idx store d = (none, d, store) := by
  cases B with
  | zero => rfl
  | succ n => simp [pruneRun]

/-- A failure-free run deletes exactly the first `perBatch * batches` pending
ids and counts the removed rows. -/
theorem pruneRun_none (perBatch : Nat) :
    ∀ (B : Nat) (pairs : List (Nat × Nat)) (idx : Nat) (store : Store) (d : Nat),
      pruneRun (fun _ => none) perBatch pairs B idx store d =
        (none,
         d + (store.length - (deletePairs (pairs.take (perBatch * B)) store).length),
         deletePairs (pairs.take (perBatch * B)) store) := by
  intro B
  induction B with
  | zero =>
    intro pairs idx store d
    simp [pruneRun, deletePairs_nil_pairs]
  | succ n ih =>
    intro pairs idx store d
    by_cases hb : (pairs.take perBatch).isEmpty
    · have hnil : pairs.take perBatch = [] := List.isEmpty_iff.mp hb
      rcases List.take_eq_nil_iff.mp hnil with h0 | hpnil
      · subst h0
        simp [pruneRun, hnil, deletePairs_nil_pairs]
      · subst hpnil
        simp [pruneRun, deletePairs_nil_pairs]
    · have hstep : pruneRun (fun _ => none) perBatch pairs (n + 1) idx store d
          = pruneRun (fun _ => none) perBatch (pairs.drop perBatch) n (idx + 1)
              (deletePairs (pairs.take perBatch) store)
              (d + (store.length - (deletePairs (pairs.take perBatch) store).length)) := by
        conv_lhs => rw [pruneRun]
        simp [hb]
      rw [hstep, ih]
      have htake : pairs.take (perBatch * (n + 1))
          = pairs.take perBatch ++ (pairs.drop perBatch).take (perBatch * n) := by
        rw [Nat.mul_succ, Nat.add_comm, List.take_add]
      rw [htake, ← deletePairs_append]
      have h1 : (deletePairs (pairs.take perBatch) store).length ≤ store.length :=
        length_deletePairs_le _ _
      have h2 : (deletePairs ((pairs.drop perBatch).take (perBatch * n))
          (deletePairs (pairs.take perBatch) store)).length
            ≤ (deletePairs (pairs.take perBatch) store).length :=
        length_deletePairs_le _ _
      simp only [Prod.mk.injEq, true_and, and_true]
      omega

/-- A failure-free prune equals one deletion of the capped excess set; the
reported count is the number of rows removed. -/
theorem prune_store_eq (keep perBatch maxBatches : Nat) (store : Store) :
    (pruneExpiredVersions keep perBatch maxBatches store).2
      = deletePairs ((excessPairs keep store).take (perBatch * maxBatches)) store ∧
    (pruneExpiredVersions keep perBatch maxBatches store).1
      = store.length -
        (deletePairs ((excessPairs keep store).take (perBatch * maxBatches)) store).length := by
  unfold pruneExpiredVersions pruneExpiredVersionsWith
  rw [pruneRun_none]
  simp

/-- A parent's surviving versions after a failure-free prune, as a filter of
its original version list. -/
theorem survivors_eq_filter (keep perBatch maxBatches : Nat) (store : Store)
    (pid : Nat) :
    versionsOf (pruneExpiredVersions keep perBatch maxBatches store).2 pid
      = (versionsOf store pid).filter
          (fun v => decide ((pid, v) ∉ (excessPairs keep store).take (perBatch * maxBatches))) := by
  rw [(prune_store_eq keep perBatch maxBatches store).1, versionsOf_deletePairs]

/-- When the batch cap covers the whole excess set, each parent keeps exactly
the suffix of its ascending version list. -/
theorem survivors_full {store : Store} {keep perBatch maxBatches : Nat}
    (hok : StoreOk store)
    (hcap : (excessPairs keep store).length ≤ perBatch * maxBatches) (pid : Nat) :
    versionsOf (pruneExpiredVersions keep perBatch maxBatches store).2 pid
      = (versionsOf store pid).drop ((versionsOf store pid).length - keep) := by
  rw [survivors_eq_filter, List.take_of_length_le hcap]
  have hcong : ∀ v ∈ versionsOf store pid,
      (decide ((pid, v) ∉ excessPairs keep store) : Bool)
        = decide (v ∉ (versionsOf store pid).take
            ((versionsOf store pid).length - keep)) := by
    intro v hv
    have hiff : (pid, v) ∈ excessPairs keep store ↔
        v ∈ (versionsOf store pid).take ((versionsOf store pid).length - keep) := by
      rw [mem_excessPairs]
      constructor
      · rintro ⟨_, he⟩
        simp only [excessList, sortedVersions_eq hok] at he
        exact he
      · intro ht
        refine ⟨mem_parentsOf_of_mem_versionsOf hv, ?_⟩
        simp only [excessList, sortedVersions_eq hok]
        exact ht
    exact decide_eq_decide.mpr (not_congr hiff)
  rw [List.filter_congr hcong, filter_not_mem_take (nodup_versionsOf hok pid)]

/-- A prune finding no excess deletes nothing and leaves the store as is. -/
theorem prune_of_excess_nil {keep perBatch maxBatches : Nat} {store : Store}
    (h : excessPairs keep store = []) :
    pruneExpiredVersions keep perBatch maxBatches store = (0, store) := by
  unfold pruneExpiredVersions pruneExpiredVersionsWith
  rw [h, pruneRun_nil]

/-- `parentSlice` distributes over concatenation. -/
theorem parentSlice_append (pid : Nat) (ps qs : List (Nat × Nat)) :
    parentSlice pid (ps ++ qs) = parentSlice pid ps ++ parentSlice pid qs := by
  simp [parentSlice, List.filter_append]

/-- Slicing a single parent's pair block keeps it whole or drops it whole. -/
theorem parentSlice_map_pair (pid p : Nat) (xs : List Nat) :
    parentSlice pid (xs.map (fun v => (p, v))) = if p = pid then xs else [] := by
  by_cases h : p = pid <;>
    simp [parentSlice, List.filter_map, Function.comp, h]

/-- Slicing the pair blocks of parents other than `pid` yields nothing. -/
theorem parentSlice_flatMap_nil {pid : Nat} {L : List Nat} (h : pid ∉ L)
    (g : Nat → List Nat) :
    parentSlice pid (L.flatMap (fun p => (g p).map (fun v => (p, v)))) = [] := by
  induction L with
  | nil => simp [parentSlice]
  | cons p L ih =>
    simp only [List.flatMap_cons, parentSlice_append, parentSlice_map_pair]
    have hp : ¬p = pid := by
      intro he
      exact h (he ▸ List.mem_cons_self p L)
    rw [if_neg hp, List.nil_append]
    exact ih (fun hm => h (List.mem_cons_of_mem p hm))

/-- Over a duplicate-free parent list, slicing the concatenated pair blocks
recovers exactly `pid`'s block. -/
theorem parentSlice_flatMap {pid : Nat} {L : List Nat} (hnd : L.Nodup)
    (hm : pid ∈ L) (g : Nat → List Nat) :
    parentSlice pid (L.flatMap (fun p => (g p).map (fun v => (p, v)))) = g pid := by
  induction L with
  | nil => exact absurd hm (List.not_mem_nil pid)
  | cons p L ih =>
    simp only [List.flatMap_cons, parentSlice_append, parentSlice_map_pair]
    rcases List.mem_cons.mp hm with he | hmem
    · subst he
      rw [if_pos rfl, parentSlice_flatMap_nil (List.nodup_cons.mp hnd).1 g,
        List.append_nil]
    · have hp : ¬p = pid := by
        intro he
        subst he
        exact (List.nodup_cons.mp hnd).1 hmem
      rw [if_neg hp, List.nil_append]
      exact ih (List.nodup_cons.mp hnd).2 hmem

/-- The store-wide excess set restricted to one parent is that parent's
excess list, in order. -/
theorem parentSlice_excessPairs (keep : Nat) (store : Store) (pid : Nat) :
    parentSlice pid (excessPairs keep store) = excessList keep store pid := by
  by_cases h : pid ∈ parentsOf store
  · exact parentSlice_flatMap (List.nodup_dedup _) h _
  · rw [excessPairs, parentSlice_flatMap_nil h]
    simp [excessList, sortedVersions, versionsOf_eq_nil h]

/-- Whatever the batch cap, the pairs selected for one parent form a prefix
of that parent's oldest-first excess list. -/
theorem parentSlice_take_excessPairs (keep cap : Nat) (store : Store) (pid : Nat) :
    ∃ m, parentSlice pid ((excessPairs keep store).take cap)
        = (excessList keep store pid).take m := by
  refine ⟨(parentSlice pid ((excessPairs keep store).take cap)).length, ?_⟩
  have h1 : excessList keep store pid
      = parentSlice pid ((excessPairs keep store).take cap)
        ++ parentSlice pid ((excessPairs keep store).drop cap) := by
    rw [← parentSlice_excessPairs keep store pid, ← parentSlice_append,
      List.take_append_drop]
  rw [h1, List.take_left]

/-- A round drawn from a nonempty pending list with a positive row limit is
nonempty. -/
theorem take_isEmpty_false {α : Type} {pairs : List α} {perBatch : Nat}
    (hpb : 0 < perBatch) (hlen : 0 < pairs.length) :
    (pairs.take perBatch).isEmpty = false := by
  cases pairs with
  | nil => simp at hlen
  | cons a rest =>
    cases perBatch with
    | zero => omega
    | succ m => simp [List.take]

/-- A run whose store fails round `i` (all earlier rounds succeeding, with
round `i` actually attempted) applies exactly the first `i` rounds, keeps
their deletions, and surfaces the error unchanged. -/
theorem pruneRun_fail (failAt : Nat → Option StoreError) (perBatch : Nat)
    (e : StoreError) :
    ∀ (i : Nat) (pairs : List (Nat × Nat)) (B idx : Nat) (store : Store) (d : Nat),
      (∀ j, j < i → failAt (idx + j) = none) →
      failAt (idx + i) = some e →
      i < B → perBatch * i < pairs.length → 0 < perBatch →
      pruneRun failAt perBatch pairs B idx store d =
        (some e,
         d + (store.length - (deletePairs (pairs.take (perBatch * i)) store).length),
         deletePairs (pairs.take (perBatch * i)) store) := by
  intro i
  induction i with
  | zero =>
    intro pairs B idx store d hnone hfail hiB hlen hpb
    cases B with
    | zero => omega
    | succ n =>
      have hne : (pairs.take perBatch).isEmpty = false :=
        take_isEmpty_false hpb (by simpa using hlen)
      have hfail0 : failAt idx = some e := by simpa using hfail
      simp [pruneRun, hne, hfail0, deletePairs_nil_pairs]
  | succ i ih =>
    intro pairs B idx store d hnone hfail hiB hlen hpb
    cases B with
    | zero => omega
    | succ n =>
      have hmul : perBatch * (i + 1) = perBatch * i + perBatch := Nat.mul_succ _ _
      have hne : (pairs.take perBatch).isEmpty = false :=
        take_isEmpty_false hpb (by omega)
      have h0 : failAt idx = none := by simpa using hnone 0 (Nat.succ_pos i)
      have hstep : pruneRun failAt perBatch pairs (n + 1) idx store d
          = pruneRun failAt perBatch (pairs.drop perBatch) n (idx + 1)
              (deletePairs (pairs.take perBatch) store)
              (d + (store.length - (deletePairs (pairs.take perBatch) store).length)) := by
        conv_lhs => rw [pruneRun]
        simp [hne, h0]
      have h1 : ∀ j, j < i → failAt (idx + 1 + j) = none := by
        intro j hj
        have h := hnone (j + 1) (by omega)
        rw [show idx + 1 + j = idx + (j + 1) by omega]
        exact h
      have h2 : failAt (idx + 1 + i) = some e := by
        rw [show idx + 1 + i = idx + (i + 1) by omega]
        exact hfail
      have h4 : perBatch * i < (pairs.drop perBatch).length := by
        rw [List.length_drop]
        omega
      rw [hstep, ih (pairs.drop perBatch) n (idx + 1)
        (deletePairs (pairs.take perBatch) store)
        (d + (store.length - (deletePairs (pairs.take perBatch) store).length))
        h1 h2 (by omega) h4 hpb]
      have htake : pairs.take (perBatch * (i + 1))
          = pairs.take perBatch ++ (pairs.drop perBatch).take (perBatch * i) := by
        rw [hmul, Nat.add_comm, List.take_add]
      rw [htake, ← deletePairs_append]
      have hl1 : (deletePairs (pairs.take perBatch) store).length ≤ store.length :=
        length_deletePairs_le _ _
      have hl2 : (deletePairs ((pairs.drop perBatch).take (perBatch * i))
          (deletePairs (pairs.take perBatch) store)).length
            ≤ (deletePairs (pairs.take perBatch) store).length :=
        length_deletePairs_le _ _
      simp only [Prod.mk.injEq, true_and, and_true]
      omega

/-- C1: for every parent whose version count exceeds `versionsToKeep`, one
invocation of `pruneExpiredVersions` with batch cap at least the total
excess leaves exactly `versionsToKeep` of that parent's versions, and every
surviving version is larger than every deleted one — the survivors are the
`versionsToKeep` highest-numbered versions. -/
theorem c1_unbounded_prune_keeps_exactly_latest {store : Store}
    {keep perBatch maxBatches pid : Nat} (hok : StoreOk store)
    (hcap : (excessPairs keep store).length ≤ perBatch * maxBatches)
    (hcnt : keep < (versionsOf store pid).length) :
    (versionsOf (pruneExpiredVersions keep perBatch maxBatches store).2 pid).length
      = keep ∧
    (∀ v ∈ versionsOf (pruneExpiredVersions keep perBatch maxBatches store).2 pid,
      v ∈ versionsOf store pid) ∧
    (∀ v ∈ versionsOf (pruneExpiredVersions keep perBatch maxBatches store).2 pid,
      ∀ w ∈ versionsOf store pid,
        w ∉ versionsOf (pruneExpiredVersions keep perBatch maxBatches store).2 pid →
          w < v) := by
  have hs := survivors_full hok hcap pid
  refine ⟨?_, ?_, ?_⟩
  · rw [hs, List.length_drop]
    omega
  · intro v hv
    rw [hs] at hv
    exact List.mem_of_mem_drop hv
  · intro v hv w hw hnw
    rw [hs] at hv hnw
    have hw2 : w ∈ (versionsOf store pid).take
        ((versionsOf store pid).length - keep) := by
      rw [← List.take_append_drop ((versionsOf store pid).length - keep)
        (versionsOf store pid)] at hw
      rcases List.mem_append.mp hw with htk | hdp
      · exact htk
      · exact absurd hdp hnw
    have hsort := sorted_versionsOf hok pid
    rw [← List.take_append_drop ((versionsOf store pid).length - keep)
      (versionsOf store pid)] at hsort
    exact (List.pairwise_append.mp hsort).2.2 w hw2 v hv

/-- C1 witness: parent 1 with versions 1..10, `versionsToKeep = 5`,
unbounded cap — exactly versions 6..10 remain. -/
theorem c1_witness :
    StoreOk storeTen ∧ (excessPairs 5 storeTen).length ≤ 100 * 1 ∧
    5 < (versionsOf storeTen 1).length ∧
    ((versionsOf (pruneExpiredVersions 5 100 1 storeTen).2 1).length = 5 ∧
      (∀ v ∈ versionsOf (pruneExpiredVersions 5 100 1 storeTen).2 1,
        v ∈ versionsOf storeTen 1) ∧
      (∀ v ∈ versionsOf (pruneExpiredVersions 5 100 1 storeTen).2 1,
        ∀ w ∈ versionsOf storeTen 1,
          w ∉ versionsOf (pruneExpiredVersions 5 100 1 storeTen).2 1 → w < v)) ∧
    versionsOf (pruneExpiredVersions 5 100 1 storeTen).2 1 = [6, 7, 8, 9, 10] :=
  ⟨by decide, by decide, by decide,
    c1_unbounded_prune_keeps_exactly_latest (by decide) (by decide) (by decide),
    by decide⟩

/-- C2: one invocation of `pruneExpiredVersions` reports success when the
store does not fail and never deletes more than
`maxRowsPerBatch * maxBatches` rows, however much excess remains. -/
theorem c2_batch_cap_enforced {store : Store} (hok : StoreOk store)
    (keep perBatch maxBatches : Nat) :
    (pruneExpiredVersionsWith (fun _ => none) keep perBatch maxBatches store).1
      = none ∧
    (pruneExpiredVersions keep perBatch maxBatches store).1
      ≤ perBatch * maxBatches := by
  constructor
  · unfold pruneExpiredVersionsWith
    rw [pruneRun_none]
  · rw [(prune_store_eq keep perBatch maxBatches store).2]
    have h1 := deleted_le_of_keysNodup (keysOf_nodup hok)
      ((excessPairs keep store).take (perBatch * maxBatches))
    have h2 : ((excessPairs keep store).take (perBatch * maxBatches)).length
        ≤ perBatch * maxBatches := by
      rw [List.length_take]
      exact Nat.min_le_left _ _
    exact Nat.le_trans h1 h2

/-- C2 witness: 9 excess rows but cap `2 * 2 = 4` — the throttled run
succeeds and deletes exactly 4 ≤ 4 rows. -/
theorem c2_witness :
    StoreOk storeTen ∧
    ((pruneExpiredVersionsWith (fun _ => none) 1 2 2 storeTen).1 = none ∧
      (pruneExpiredVersions 1 2 2 storeTen).1 ≤ 2 * 2) ∧
    (pruneExpiredVersions 1 2 2 storeTen).1 = 4 ∧
    9 ≤ (excessPairs 1 storeTen).length :=
  ⟨by decide, c2_batch_cap_enforced (by decide) 1 2 2, by decide, by decide⟩

/-- C3: a failure-free run deletes exactly the capped prefix of the excess
set; the pairs it selects for any one parent form a prefix of that parent's
oldest-first excess list, and the `versionsToKeep` most recent versions of
every parent survive every invocation, batch-capped ones included. -/
theorem c3_oldest_first_within_parent {store : Store} (hok : StoreOk store)
    (keep perBatch maxBatches pid : Nat) :
    (pruneExpiredVersions keep perBatch maxBatches store).2
      = deletePairs ((excessPairs keep store).take (perBatch * maxBatches)) store ∧
    (∃ m, parentSlice pid ((excessPairs keep store).take (perBatch * maxBatches))
        = (excessList keep store pid).take m) ∧
    ∀ v ∈ keptList keep store pid,
      v ∈ versionsOf (pruneExpiredVersions keep perBatch maxBatches store).2 pid := by
  refine ⟨(prune_store_eq keep perBatch maxBatches store).1,
    parentSlice_take_excessPairs keep (perBatch * maxBatches) store pid, ?_⟩
  intro v hv
  have hv2 : v ∈ (versionsOf store pid).drop
      ((versionsOf store pid).length - keep) := by
    simpa [keptList, sortedVersions_eq hok] using hv
  rw [survivors_eq_filter]
  apply List.mem_filter.mpr
  refine ⟨List.mem_of_mem_drop hv2, ?_⟩
  simp only [decide_eq_true_eq]
  intro hmem
  rcases mem_excessPairs.mp (List.mem_of_mem_take hmem) with ⟨_, he⟩
  have he2 : v ∈ (versionsOf store pid).take
      ((versionsOf store pid).length - keep) := by
    simpa [excessList, sortedVersions_eq hok] using he
  exact (List.disjoint_take_drop (nodup_versionsOf hok pid)
    (Nat.le_refl _)) he2 hv2

/-- C3 witness: a run capped at `2 * 1 = 2` rows on versions 1..10 with
`versionsToKeep = 5` — versions 6..10 all survive. -/
theorem c3_witness :
    StoreOk storeTen ∧
    ((pruneExpiredVersions 5 2 1 storeTen).2
        = deletePairs ((excessPairs 5 storeTen).take (2 * 1)) storeTen ∧
      (∃ m, parentSlice 1 ((excessPairs 5 storeTen).take (2 * 1))
          = (excessList 5 storeTen 1).take m) ∧
      ∀ v ∈ keptList 5 storeTen 1,
        v ∈ versionsOf (pruneExpiredVersions 5 2 1 storeTen).2 1) ∧
    versionsOf (pruneExpiredVersions 5 2 1 storeTen).2 1 = [3, 4, 5, 6, 7, 8, 9, 10] :=
  ⟨by decide, c3_oldest_first_within_parent (by decide) 5 2 1 1, by decide⟩

/-- C4: a parent whose version count is at most `versionsToKeep` loses no
version in any invocation, and pruning an empty store is a success that
deletes zero rows. -/
theorem c4_no_excess_no_deletion {store : Store} {keep pid : Nat}
    (perBatch maxBatches : Nat) (h : (versionsOf store pid).length ≤ keep) :
    versionsOf (pruneExpiredVersions keep perBatch maxBatches store).2 pid
      = versionsOf store pid ∧
    pruneExpiredVersions keep perBatch maxBatches ([] : Store) = (0, []) := by
  constructor
  · rw [survivors_eq_filter]
    apply List.filter_eq_self.mpr
    intro v hv
    simp only [decide_eq_true_eq]
    intro hmem
    rcases mem_excessPairs.mp (List.mem_of_mem_take hmem) with ⟨_, he⟩
    have hlen : (sortedVersions store pid).length = (versionsOf store pid).length :=
      List.length_insertionSort _ _
    simp only [excessList] at he
    rw [show (sortedVersions store pid).length - keep = 0 by omega] at he
    simp at he
  · exact prune_of_excess_nil rfl

/-- C4 witness: versions 1..10 with `versionsToKeep = 10` — nothing is
deleted, and the empty store is a zero-deletion no-op. -/
theorem c4_witness :
    (versionsOf storeTen 1).length ≤ 10 ∧
    (versionsOf (pruneExpiredVersions 10 100 1 storeTen).2 1
        = versionsOf storeTen 1 ∧
      pruneExpiredVersions 10 100 1 ([] : Store) = (0, [])) :=
  ⟨by decide, c4_no_excess_no_deletion 100 1 (by decide)⟩

/-- C5 counterexample: with parent versions 1..3, `versionsToKeep = 1` and
batch cap `1 * 1`, the first run is throttled, so the second immediately
following run still deletes a row — prune twice is not deletion-free on the
second run for arbitrary store states and caps. -/
theorem c5_counterexample :
    (pruneExpiredVersions 1 1 1 (pruneExpiredVersions 1 1 1 storeThree).2).1 ≠ 0 := by
  decide

/-- C5 (amended): when the first run's batch cap covers the whole excess,
a second run with the same or a larger `versionsToKeep` deletes zero rows
and leaves the store exactly as the first run left it — in particular
raising `versionsToKeep` cannot restore pruned versions. -/
theorem c5_idempotent_when_cap_covers_excess {store : Store}
    {keep keep2 perBatch maxBatches : Nat} (hok : StoreOk store)
    (hcap : (excessPairs keep store).length ≤ perBatch * maxBatches)
    (hk : keep ≤ keep2) (perBatch2 maxBatches2 : Nat) :
    pruneExpiredVersions keep2 perBatch2 maxBatches2
        (pruneExpiredVersions keep perBatch maxBatches store).2
      = (0, (pruneExpiredVersions keep perBatch maxBatches store).2) := by
  have hlen : ∀ pid,
      (versionsOf (pruneExpiredVersions keep perBatch maxBatches store).2 pid).length
        ≤ keep2 := by
    intro pid
    rw [survivors_full hok hcap pid, List.length_drop]
    omega
  have hex : excessPairs keep2
      (pruneExpiredVersions keep perBatch maxBatches store).2 = [] := by
    apply List.eq_nil_iff_forall_not_mem.mpr
    intro q hq
    obtain ⟨p, v⟩ := q
    rcases mem_excessPairs.mp hq with ⟨_, he⟩
    have h1 : (sortedVersions
        (pruneExpiredVersions keep perBatch maxBatches store).2 p).length ≤ keep2 := by
      simp only [sortedVersions, List.length_insertionSort]
      exact hlen p
    simp only [excessList] at he
    rw [show (sortedVersions
      (pruneExpiredVersions keep perBatch maxBatches store).2 p).length - keep2 = 0
      by omega] at he
    simp at he
  exact prune_of_excess_nil hex

/-- C5 witness: versions 1..10 fully pruned down to 3, then a second prune
with `versionsToKeep` raised to 10 — zero deletions, store unchanged. -/
theorem c5_witness :
    StoreOk storeTen ∧ (excessPairs 3 storeTen).length ≤ 10 * 1 ∧ 3 ≤ 10 ∧
    pruneExpiredVersions 10 7 7 (pruneExpiredVersions 3 10 1 storeTen).2
      = (0, (pruneExpiredVersions 3 10 1 storeTen).2) :=
  ⟨by decide, by decide, by decide,
    c5_idempotent_when_cap_covers_excess (by decide) (by decide) (by decide) 7 7⟩

/-- C6: `getVersion` fails with `NotFound` exactly when no record with that
parent and version number exists, and for every stored record it succeeds
returning that record. -/
theorem c6_getVersion_notFound_iff_absent {store : Store} (hok : StoreOk store)
    (pid v : Nat) :
    (getVersion store pid v = .error .notFound ↔
      ¬ ∃ r ∈ store, r.parentId = pid ∧ r.version = v) ∧
    (∀ r ∈ store, r.parentId = pid → r.version = v →
      getVersion store pid v = .ok r) := by
  constructor
  · cases hf : store.find? (fun r => r.parentId == pid && r.version == v) with
    | none =>
      rw [List.find?_eq_none] at hf
      simp only [getVersion]
      rw [List.find?_eq_none.mpr hf]
      simp only [true_iff, iff_true]
      rintro ⟨r, hr, hp, hv⟩
      have h := hf r hr
      simp [hp, hv] at h
    | some r =>
      simp only [getVersion, hf]
      have hr := List.mem_of_find?_eq_some hf
      have hp := List.find?_some hf
      rw [Bool.and_eq_true, beq_iff_eq, beq_iff_eq] at hp
      constructor
      · intro h
        exact absurd h (by simp)
      · intro h
        exact absurd ⟨r, hr, hp.1, hp.2⟩ h
  · intro r hr hp hv
    cases hf : store.find? (fun r => r.parentId == pid && r.version == v) with
    | none =>
      rw [List.find?_eq_none] at hf
      have h := hf r hr
      simp [hp, hv] at h
    | some r2 =>
      have hr2 := List.mem_of_find?_eq_some hf
      have hp2 := List.find?_some hf
      rw [Bool.and_eq_true, beq_iff_eq, beq_iff_eq] at hp2
      have hnd := keysOf_nodup hok
      simp only [keysOf] at hnd
      have heq : r2 = r := by
        apply List.inj_on_of_nodup_map hnd hr2 hr
        simp [hp2.1, hp2.2, hp, hv]
      rw [heq] at hf
      simp [getVersion, hf]

/-- C6 witness: versions 1..3 for parent 1 — version 2 is found and
returned, while the pair (1, 9) yields `NotFound`. -/
theorem c6_witness :
    StoreOk storeThree ∧
    getVersion storeThree 1 2 = .ok ⟨1, 2, "", 1⟩ ∧
    (getVersion storeThree 1 9 = .error .notFound ↔
      ¬ ∃ r ∈ storeThree, r.parentId = 1 ∧ r.version = 9) ∧
    getVersion storeThree 1 9 = .error .notFound :=
  ⟨by decide,
    (c6_getVersion_notFound_iff_absent (by decide) 1 2).2 ⟨1, 2, "", 1⟩
      (by decide) (by decide) (by decide),
    (c6_getVersion_notFound_iff_absent (by decide) 1 9).1,
    by rfl⟩

/-- C7: `listVersions` on a parent with zero recorded versions fails with
`NoVersionsFound` and an empty result sequence; on a parent with at least
one version it succeeds with one record per save (a permutation of the
parent's rows), ordered descending by version, the first element carrying
the maximum version number. -/
theorem c7_listVersions_order_and_errors (store : Store) (pid : Nat) :
    (recordsOf store pid = [] →
      listVersions store pid = (some .noVersionsFound, [])) ∧
    (recordsOf store pid ≠ [] →
      (listVersions store pid).1 = none ∧
      ((listVersions store pid).2).Perm (recordsOf store pid) ∧
      ((listVersions store pid).2).Sorted (fun a b => b.version ≤ a.version) ∧
      ∃ h t, (listVersions store pid).2 = h :: t ∧
        ∀ r ∈ (listVersions store pid).2, r.version ≤ h.version) := by
  constructor
  · intro h
    simp [listVersions, h]
  · intro h
    have hne : ((recordsOf store pid).insertionSort
        (fun a b => b.version ≤ a.version)).isEmpty = false := by
      rw [List.isEmpty_eq_false]
      intro hnil
      apply h
      have hlen := List.length_insertionSort
        (fun a b : VersionedRecord => b.version ≤ a.version) (recordsOf store pid)
      rw [hnil] at hlen
      exact List.length_eq_zero.mp hlen.symm
    have hsv : listVersions store pid
        = (none, (recordsOf store pid).insertionSort
            (fun a b => b.version ≤ a.version)) := by
      simp [listVersions, hne]
    rw [hsv]
    refine ⟨rfl, List.perm_insertionSort _ _, List.sorted_insertionSort _ _, ?_⟩
    cases hc : (recordsOf store pid).insertionSort
        (fun a b => b.version ≤ a.version) with
    | nil =>
      rw [hc] at hne
      simp at hne
    | cons hh tt =>
      refine ⟨hh, tt, rfl, ?_⟩
      intro r hr
      have hsorted := List.sorted_insertionSort
        (fun a b : VersionedRecord => b.version ≤ a.version) (recordsOf store pid)
      rw [hc] at hsorted
      have hr2 : r ∈ hh :: tt := hr
      rcases List.mem_cons.mp hr2 with he | hmem
      · subst he
        exact Nat.le_refl _
      · exact (List.sorted_cons.mp hsorted).1 r hmem

/-- C7 witness: parent 1 of the three-version store lists versions 3,2,1
descending; parent 2 has no versions and yields `NoVersionsFound` with an
empty sequence. -/
theorem c7_witness :
    (recordsOf storeThree 2 = [] →
      listVersions storeThree 2 = (some .noVersionsFound, [])) ∧
    recordsOf storeThree 2 = [] ∧
    recordsOf storeThree 1 ≠ [] ∧
    ((listVersions storeThree 1).1 = none ∧
      ((listVersions storeThree 1).2).Perm (recordsOf storeThree 1) ∧
      ((listVersions storeThree 1).2).Sorted (fun a b => b.version ≤ a.version) ∧
      ∃ h t, (listVersions storeThree 1).2 = h :: t ∧
        ∀ r ∈ (listVersions storeThree 1).2, r.version ≤ h.version) :=
  ⟨(c7_listVersions_order_and_errors storeThree 2).1, by decide, by decide,
    (c7_listVersions_order_and_errors storeThree 1).2 (by decide)⟩

/-- C8: if the backing store fails round `i` of an invocation (all earlier
rounds succeeding and round `i` actually being attempted), the invocation
stops there: the error is returned unmodified with no retry, no later batch
runs, and the rows deleted by the `i` completed batches stay deleted. -/
theorem c8_store_error_aborts_and_propagates {keep perBatch maxBatches : Nat}
    {store : Store} {failAt : Nat → Option StoreError} {i : Nat} {e : StoreError}
    (hnone : ∀ j, j < i → failAt j = none) (hfail : failAt i = some e)
    (hiB : i < maxBatches) (hlen : perBatch * i < (excessPairs keep store).length)
    (hpb : 0 < perBatch) :
    pruneExpiredVersionsWith failAt keep perBatch maxBatches store =
      (some e,
       store.length -
         (deletePairs ((excessPairs keep store).take (perBatch * i)) store).length,
       deletePairs ((excessPairs keep store).take (perBatch * i)) store) := by
  unfold pruneExpiredVersionsWith
  have h1 : ∀ j, j < i → failAt (0 + j) = none := by
    intro j hj
    simpa using hnone j hj
  have h2 : failAt (0 + i) = some e := by simpa using hfail
  rw [pruneRun_fail failAt perBatch e i (excessPairs keep store) maxBatches 0
    store 0 h1 h2 hiB hlen hpb]
  simp

/-- C8 witness: versions 1..10 with `versionsToKeep = 1`, batches of 2, the
store failing the second round — the error surfaces unchanged, and only the
first round's 2 rows are gone. -/
theorem c8_witness :
    ((fun j => if j = 1 then some (StoreError.storeError "boom") else none) 1
        = some (StoreError.storeError "boom")) ∧
    (1 < 5 ∧ 2 * 1 < (excessPairs 1 storeTen).length ∧ 0 < 2) ∧
    pruneExpiredVersionsWith
        (fun j => if j = 1 then some (StoreError.storeError "boom") else none)
        1 2 5 storeTen =
      (some (StoreError.storeError "boom"),
       storeTen.length -
         (deletePairs ((excessPairs 1 storeTen).take (2 * 1)) storeTen).length,
       deletePairs ((excessPairs 1 storeTen).take (2 * 1)) storeTen) :=
  ⟨rfl, ⟨by decide, by decide, by decide⟩,
    c8_store_error_aborts_and_propagates
      (by
        intro j hj
        have hj0 : j = 0 := by omega
        subst hj0
        rfl)
      rfl (by decide) (by decide) (by decide)⟩

/-- C9: `updateStarredInRichHistory` returns the input unchanged when no
entry carries timestamp `ts` (whatever the storage outcome); when entry `i`
carries `ts`, timestamps are unique and storage succeeds, the result is the
input with exactly entry `i` replaced by a copy whose starred flag is
negated — order and all other entries untouched. -/
theorem c9_updateStarred_frame {richHistory : List RichHistoryQuery} {ts : Nat} :
    ((∀ q ∈ richHistory, q.ts ≠ ts) →
      ∀ ok, updateStarredInRichHistory ok richHistory ts = richHistory) ∧
    ((richHistory.map (fun q => q.ts)).Nodup →
      ∀ i, (hi : i < richHistory.length) → (richHistory.get ⟨i, hi⟩).ts = ts →
        updateStarredInRichHistory true richHistory ts =
          richHistory.set i
            { richHistory.get ⟨i, hi⟩ with
                starred := !(richHistory.get ⟨i, hi⟩).starred }) := by
  constructor
  · intro h ok
    have hany : richHistory.any (fun q => q.ts == ts) = false := by
      rw [List.any_eq_false]
      intro q hq
      simp [h q hq]
    simp [updateStarredInRichHistory, hany]
  · intro hnd i hi hts
    have htse : richHistory[i].ts = ts := hts
    have hany : richHistory.any (fun q => q.ts == ts) = true := by
      rw [List.any_eq_true]
      exact ⟨richHistory.get ⟨i, hi⟩, List.get_mem _ _ _, by simpa using hts⟩
    simp only [updateStarredInRichHistory, hany, if_true]
    apply List.ext_get
    · simp
    · intro n h1 h2
      have hnn : n < richHistory.length := by simpa using h1
      rw [List.get_map, List.get_set]
      by_cases hin : i = n
      · subst hin
        simp [htse]
      · rw [if_neg hin]
        have hne : richHistory[n].ts ≠ ts := by
          intro he
          have hln : n < (richHistory.map (fun q => q.ts)).length := by
            simpa using hnn
          have hli : i < (richHistory.map (fun q => q.ts)).length := by
            simpa using hi
          have e1 : (richHistory.map (fun q => q.ts)).get ⟨n, hln⟩
              = (richHistory.map (fun q => q.ts)).get ⟨i, hli⟩ := by
            rw [List.get_map, List.get_map]
            simpa using he.trans htse.symm
          have e2 := (hnd.get_inj_iff).mp e1
          apply hin
          have hni : n = i := by simpa using e2
          omega
        simp [hne]

/-- C9 witness: a two-entry history with distinct timestamps — flipping the
entry at timestamp 2 changes only that entry's starred flag. -/
theorem c9_witness :
    ([rhA, rhB].map (fun q => q.ts)).Nodup ∧
    updateStarredInRichHistory true [rhA, rhB] 2 =
      [rhA, rhB].set 1
        { [rhA, rhB].get ⟨1, by decide⟩ with
            starred := !([rhA, rhB].get ⟨1, by decide⟩).starred } ∧
    updateStarredInRichHistory true [rhA, rhB] 2
      = [rhA, { rhB with starred := !rhB.starred }] :=
  ⟨by decide,
    c9_updateStarred_frame.2 (by decide) 1 (by decide) (by decide),
    by decide⟩

/-- C10: `addToRichHistory` leaves the history untouched and adds no entry
whenever every submitted query is empty or the storage call throws; only
when some query is non-empty and storage succeeds is the new entry
prepended, built from the non-empty queries. -/
theorem c10_addToRichHistory_frame {outcome : StorageOutcome}
    {richHistory : List RichHistoryQuery} {datasourceId : String}
    {datasourceName : Option String} {queries : List DataQuery}
    {starred : Bool} {comment : Option String} {sessionName : String}
    {ts : Nat} :
    ((∀ q ∈ queries, notEmptyQuery q = false) →
      (addToRichHistory outcome richHistory datasourceId datasourceName queries
        starred comment sessionName ts).1 = richHistory) ∧
    ((∀ w, outcome ≠ .success w) →
      (addToRichHistory outcome richHistory datasourceId datasourceName queries
        starred comment sessionName ts).1 = richHistory) ∧
    (∀ w, outcome = .success w → (∃ q ∈ queries, notEmptyQuery q = true) →
      (addToRichHistory outcome richHistory datasourceId datasourceName queries
        starred comment sessionName ts).1 =
        { queries := queries.filter (fun query => notEmptyQuery query)
          ts := ts
          datasourceId := datasourceId
          datasourceName := datasourceName.getD ""
          starred := starred
          comment := comment.getD ""
          sessionName := sessionName } :: richHistory) := by
  refine ⟨?_, ?_, ?_⟩
  · intro h
    have hfil : queries.filter (fun query => notEmptyQuery query) = [] :=
      List.filter_eq_nil_iff.mpr (by intro q hq; simp [h q hq])
    simp [addToRichHistory, hfil]
  · intro h
    by_cases hq : 0 < (queries.filter (fun query => notEmptyQuery query)).length
    · cases outcome with
      | success w => exact absurd rfl (h w)
      | storageFullError => simp [addToRichHistory, hq]
      | duplicatedEntryError => simp [addToRichHistory, hq]
      | otherError => simp [addToRichHistory, hq]
    · simp [addToRichHistory, hq]
  · rintro w rfl ⟨q, hq, hne⟩
    have hq2 : q ∈ queries.filter (fun query => notEmptyQuery query) :=
      List.mem_filter.mpr ⟨hq, hne⟩
    have hlen : 0 < (queries.filter (fun query => notEmptyQuery query)).length :=
      List.length_pos.mpr (by
        intro hnil
        rw [hnil] at hq2
        exact absurd hq2 (List.not_mem_nil q))
    simp [addToRichHistory, hlen]

/-- C10 witness: one empty and one non-empty query with a successful
storage call — the entry is prepended; the same call with a failing storage
outcome, or with only empty queries, returns the history unchanged. -/
theorem c10_witness :
    (∀ q ∈ ([[("refId", "A")]] : List DataQuery), notEmptyQuery q = false) ∧
    (addToRichHistory (.success false) [rhA] "ds" (some "DS")
        [[("refId", "A")]] false none "s" 7).1 = [rhA] ∧
    (∀ w, StorageOutcome.otherError ≠ .success w) ∧
    (addToRichHistory .otherError [rhA] "ds" (some "DS")
        [[("refId", "A")], [("expr", "up")]] false none "s" 7).1 = [rhA] ∧
    (addToRichHistory (.success false) [rhA] "ds" (some "DS")
        [[("refId", "A")], [("expr", "up")]] false none "s" 7).1 =
      { queries := ([[("refId", "A")], [("expr", "up")]] : List DataQuery).filter
          (fun query => notEmptyQuery query)
        ts := 7
        datasourceId := "ds"
        datasourceName := (some "DS").getD ""
        starred := false
        comment := (none : Option String).getD ""
        sessionName := "s" } :: [rhA] :=
  ⟨by decide,
    c10_addToRichHistory_frame.1 (by decide),
    (by intro w h; cases h),
    (c10_addToRichHistory_frame.2.1) (by intro w h; cases h),
    c10_addToRichHistory_frame.2.2 false rfl
      ⟨[("expr", "up")], by decide, by decide⟩⟩
